import Mathlib

/-!
# hash_table_c: a chained hash table from strings to strings

Shallow embedding of `src/hashtable.c` (with the types of `src/hashtable.h`
and the driver `src/test.c`).

Modelling conventions.

* A C string is the list of its `char` values before the terminating NUL, each
  already converted by `(int)str[i]`.  The loop test `str[i]` is therefore the
  test that the list is not exhausted, `strcmp(a, b) == 0` is equality of the
  lists, and `strcpy` is the identity.
* `int` arithmetic in `hash_function` wraps around at 32 bits: every
  addition and shift is followed by `int32_wrap`.  The C operator `%` truncates
  towards zero and is `Int.tmod`.
* A pointer that may be `NULL` is an `Option` (items) or a possibly empty list
  (chains: a `linked_list_t *` is the list of the items of its nodes).
* The arrays `items` and `buckets` are lists.  `buckets` has `table_size`
  elements.  `items` has `2 * table_size` elements: `hash_table_create`
  allocates it with `calloc(table_size, sizeof(hash_item_t))`, and a
  `hash_item_t` is two pointers, so the zeroed block holds `2 * table_size`
  pointers.  An access `a[index]` outside `0 <= index < length` is undefined
  behaviour and makes the operation return `none`; every operation on the
  table therefore returns an `Option`.
* Two facts of the heap are kept beside the fields of the table.  The `next`
  field of the head node that `hash_table_handle_collision` allocates is never
  assigned: the operations read it as `NULL`, which is what a fresh heap
  holds, and `unassigned_next` lists the chains whose last link is such a
  value.  The overwrite in `hash_table_insert` stores the pointer of the
  caller, not a copy: `caller_value` lists the slots whose value is such a
  pointer, which `hash_table_free_item` later passes to `free`.
* The fields `table_size` and `num_elements` are integers; `num_elements` moves
  by one per call and is not wrapped.
-/

namespace HashTableC

/-! ## Data model (`hashtable.h`) -/

/-- The `char` values of a C string, before the terminating NUL. -/
abbrev c_string := List Int

/-- The constant `static const uint8_t HASH_TABLE_SIZE = 255u;`. -/
def HASH_TABLE_SIZE : Int := 255

/-- The struct `hash_item_t`: a key and a value. -/
structure hash_item_t where
  key : c_string
  value : c_string
deriving DecidableEq, Repr

/-- A `linked_list_t *`: the items of the nodes in link order; `NULL` is `[]`. -/
abbrev linked_list_t := List hash_item_t

/-- The struct `hash_table_t`, with two lists of indices that record facts of the
heap and are no fields of the C struct: `unassigned_next` holds the indices `i`
at which the last link of the chain `i` (the `next` of its last node, or
`buckets[i]` itself when no node is left) is a value that was never assigned,
and `caller_value` holds the indices `i` at which `items[i]->value` is the
pointer that the caller passed. -/
structure hash_table_t where
  items : List (Option hash_item_t)
  buckets : List linked_list_t
  table_size : Int
  num_elements : Int
  unassigned_next : List Int := []
  caller_value : List Int := []
deriving DecidableEq, Repr

/-! ## Machine arithmetic and array access -/

/-- Reduction of an integer to the range of a 32 bit signed `int`. -/
def int32_wrap (x : Int) : Int := (x + 2147483648) % 4294967296 - 2147483648

/-- The read `a[i]`: `none` when `i` is outside the array. -/
def array_get {α : Type} (a : List α) (i : Int) : Option α :=
  if 0 ≤ i then a[i.toNat]? else none

/-- The write `a[i] = x`, used after a read of `a[i]` has succeeded. -/
def array_set {α : Type} (a : List α) (i : Int) (x : α) : List α :=
  a.set i.toNat x

/-- Removal of the index `i` from a list of recorded indices. -/
def flag_clear (flags : List Int) (i : Int) : List Int :=
  flags.filter (fun j => j ≠ i)

/-- Recording of the index `i` in a list of recorded indices. -/
def flag_set (flags : List Int) (i : Int) : List Int :=
  i :: flag_clear flags i

/-! ## The hash function -/

/-- The loop of `hash_function`: `hash_val += (int)str[i]; hash_val = hash_val << 1;`. -/
def hash_function_loop (hash_val : Int) : c_string → Int
  | [] => hash_val
  | c :: rest => hash_function_loop (int32_wrap (int32_wrap (hash_val + c) * 2)) rest

/-- The function `hash_function`: the accumulator of the loop, `% HASH_TABLE_SIZE`. -/
def hash_function (str : c_string) : Int :=
  Int.tmod (hash_function_loop 0 str) HASH_TABLE_SIZE

/-! ## Items and chains -/

/-- The function `create_item`: a fresh item holding copies of key and value. -/
def create_item (key value : c_string) : hash_item_t :=
  { key := key, value := value }

/-- The walk of `linked_list_insert` on a list of at least two nodes:
`while (temp->next->next) temp = temp->next;` followed by `temp->next = node`.
The argument is the list starting at `temp`. -/
def linked_list_insert_walk : linked_list_t → hash_item_t → linked_list_t
  | a :: b :: c :: rest, item => a :: linked_list_insert_walk (b :: c :: rest) item
  | a :: _ :: [], item => [a, item]
  | a :: [], item => [a, item]
  | [], item => [item]

/-- The function `linked_list_insert`, returning the head of the list. -/
def linked_list_insert (list : linked_list_t) (item : hash_item_t) : linked_list_t :=
  match list with
  | [] => [item]
  | [a] => [a, item]
  | a :: b :: rest => linked_list_insert_walk (a :: b :: rest) item

/-! ## The table -/

/-- The function `hash_table_create`.  `calloc(table_size, sizeof(hash_item_t))`
gives a zeroed block of `2 * table_size` pointers for `items`;
`hash_table_create_overflow_buckets` gives the array of `table_size` empty
chains. -/
def hash_table_create (size : Int) : hash_table_t :=
  { items := List.replicate (2 * size.toNat) none
    buckets := List.replicate size.toNat []
    table_size := size
    num_elements := 0 }

/-- The function `hash_table_handle_collision`.  When the chain is empty the new
head node is allocated and only its `item` is assigned: its `next` is never
assigned, which `unassigned_next` records.  `linked_list_insert` ends the chain
with a node whose `next` it sets to `NULL`. -/
def hash_table_handle_collision (table : hash_table_t) (index : Int) (item : hash_item_t) :
    Option hash_table_t :=
  match array_get table.buckets index with
  | none => none
  | some (a :: rest) =>
    some { table with
      buckets := array_set table.buckets index (linked_list_insert (a :: rest) item)
      unassigned_next := flag_clear table.unassigned_next index }
  | some [] =>
    some { table with
      buckets := array_set table.buckets index [item]
      unassigned_next := flag_set table.unassigned_next index }

/-- The function `hash_table_insert`.  A new primary entry is the item of
`create_item`; the overwrite assigns the pointer `value` of the caller to
`items[index]->value`, which `caller_value` records. -/
def hash_table_insert (table : hash_table_t) (key value : c_string) : Option hash_table_t :=
  let item := create_item key value
  let index := hash_function key
  match array_get table.items index with
  | none => none
  | some none =>
    if table.num_elements = table.table_size then
      some table                                     -- the item is freed, the table is as it was
    else
      some { table with
        items := array_set table.items index (some item)
        num_elements := table.num_elements + 1
        caller_value := flag_clear table.caller_value index }
  | some (some current_item) =>
    if current_item.key = key then                   -- strcmp(current_item->key, key) == 0
      some { table with
        items := array_set table.items index (some { current_item with value := value })
        caller_value := flag_set table.caller_value index }
    else
      hash_table_handle_collision table index item

/-- The `while (curr)` loop of `hash_table_delete`.  `first` says that `prev == NULL`,
which holds in the first iteration only (afterwards `prev` is the node `curr`).
In a later iteration the branch frees `curr` while its predecessor still links
it, which leaves no well-formed table: `none`. -/
def hash_table_delete_loop (table : hash_table_t) (index : Int) (item : hash_item_t)
    (key : c_string) : linked_list_t → Bool → Option hash_table_t
  | [], _ => some table
  | _ :: next, first =>
    if item.key ≠ key then                           -- if (strcmp(item->key, key))
      if first then
        some { table with
          buckets := array_set table.buckets index []
          unassigned_next := flag_clear table.unassigned_next index }
      else
        none
    else
      hash_table_delete_loop table index item key next false

/-- The function `hash_table_delete`.  Both branches that remove the primary
entry call `hash_table_free_item` on it, which frees `item->value`; the index
then leaves `caller_value`.  The promotion copies `head->next` into
`buckets[index]`, so an unassigned last link stays unassigned. -/
def hash_table_delete (table : hash_table_t) (key : c_string) : Option hash_table_t :=
  let index := hash_function key
  match array_get table.items index, array_get table.buckets index with
  | none, _ => none
  | _, none => none
  | some none, some _ => some table                 -- if (item == NULL) return;
  | some (some item), some [] =>
    if item.key = key then                           -- head == NULL && strcmp(...) == 0
      some { table with
        items := array_set table.items index none
        num_elements := table.num_elements - 1
        caller_value := flag_clear table.caller_value index }
    else
      some table
  | some (some item), some (node :: rest) =>
    if item.key ≠ key then                           -- if (strcmp(item->key, key))
      some { table with
        items := array_set table.items index (some (create_item node.key node.value))
        buckets := array_set table.buckets index rest
        caller_value := flag_clear table.caller_value index }
    else
      hash_table_delete_loop table index item key (node :: rest) true

/-- The function `hash_table_search`: `some none` is the result `NULL`, and
`some (some v)` the value `v`. -/
def hash_table_search (table : hash_table_t) (key : c_string) : Option (Option c_string) :=
  let index := hash_function key
  match array_get table.items index, array_get table.buckets index with
  | none, _ => none
  | _, none => none
  | some (some item), some head =>
    if item.key = key then
      some (some item.value)
    else
      match head with
      | [] => some none        -- if (head == NULL) return NULL;
      | _ :: _ => some none    -- item = head->item; head = head->next; then return NULL;
  | some none, some _ => some none

/-- The tables that `hash_table_create` followed by calls of `hash_table_insert`
and `hash_table_delete` can produce.  A call that returns `none` accesses
`items` or `buckets` outside its block and has no table after it. -/
inductive Reachable : hash_table_t → Prop
  | create (size : Int) : Reachable (hash_table_create size)
  | insert {t t' : hash_table_t} (key value : c_string) :
      Reachable t → hash_table_insert t key value = some t' → Reachable t'
  | delete {t t' : hash_table_t} (key : c_string) :
      Reachable t → hash_table_delete t key = some t' → Reachable t'

/-- The tables that `hash_table_create(capacity)` followed by calls of
`hash_table_insert` and `hash_table_delete` can produce. -/
inductive ReachableFrom (capacity : Int) : hash_table_t → Prop
  | create : ReachableFrom capacity (hash_table_create capacity)
  | insert {t t' : hash_table_t} (key value : c_string) :
      ReachableFrom capacity t → hash_table_insert t key value = some t' →
      ReachableFrom capacity t'
  | delete {t t' : hash_table_t} (key : c_string) :
      ReachableFrom capacity t → hash_table_delete t key = some t' →
      ReachableFrom capacity t'

/-- The facts that every operation on the table keeps: `items` has
`2 * table_size` elements and `buckets` has `table_size`, `num_elements` is the
number of occupied primary slots and does not exceed `table_size`, every stored
entry sits at the index of its key, and an empty primary slot has no chain
node. -/
structure table_invariant (t : hash_table_t) : Prop where
  items_length : t.items.length = 2 * t.table_size.toNat
  buckets_length : t.buckets.length = t.table_size.toNat
  count : t.num_elements = (t.items.countP Option.isSome : Nat)
  count_le : 0 ≤ t.table_size → t.num_elements ≤ t.table_size
  placement_items : ∀ (i : Int) (item : hash_item_t),
    array_get t.items i = some (some item) → hash_function item.key = i
  placement_buckets : ∀ (i : Int) (chain : linked_list_t) (e : hash_item_t),
    array_get t.buckets i = some chain → e ∈ chain → hash_function e.key = i
  no_orphan : ∀ (i : Int) (chain : linked_list_t),
    array_get t.items i = some none → array_get t.buckets i = some chain → chain = []

/-! ## The hash in unbounded integers -/

/-- The accumulator of the hash as the specification words it, in unbounded
integers: it starts at 0 and every byte `b` of the key, in order, sets it to
`(accumulator + b) * 2`. -/
def hash_reference_accumulator (key : c_string) : Int :=
  key.foldl (fun accumulator b => (accumulator + b) * 2) 0

/-- The hash as the specification words it: the accumulator modulo 255. -/
def hash_reference (key : c_string) : Int :=
  hash_reference_accumulator key % 255

/-- The values that the two assignments of the loop of `hash_function` give to
`hash_val`, computed without wrapping: `hash_val + c` and then its double, for
every char `c` of the key in order. -/
def hash_val_trace (hash_val : Int) : c_string → List Int
  | [] => []
  | c :: rest =>
    (hash_val + c) :: ((hash_val + c) * 2) :: hash_val_trace ((hash_val + c) * 2) rest

/-- The greatest accumulator from which `n` more chars of at most 127 keep
`hash_val` within `2^31 - 1`. -/
def hash_val_room : Nat → Int
  | 0 => 2147483647
  | n + 1 => hash_val_room n / 2 - 127

/-! ## Concrete keys, values and tables used by the evaluations below -/

/-- The key `"AC"`. -/
def key_AC : c_string := [65, 67]

/-- The key `"BA"`, which has the hash of `"AC"`. -/
def key_BA : c_string := [66, 65]

/-- The key `"@E"`, which has the hash of `"AC"` and `"BA"`. -/
def key_atE : c_string := [64, 69]

/-- The key `"d7"`, whose hash is 0. -/
def key_d7 : c_string := [100, 55]

/-- The key `"2"` of the driver `test.c`. -/
def key_2 : c_string := [50]

/-- The key `"Hel"` of the driver `test.c`. -/
def key_Hel : c_string := [72, 101, 108]

/-- The key `"Cau"` of the driver `test.c`. -/
def key_Cau : c_string := [67, 97, 117]

/-- The key made of 24 letters `a`. -/
def key_24a : c_string := List.replicate 24 97

/-- The key `"é"` in UTF-8, the bytes `0xC3 0xA9`, where `char` is signed. -/
def key_eacute : c_string := [-61, -87]

/-- The value `"v1"`. -/
def val_1 : c_string := [118, 49]

/-- The value `"v2"`. -/
def val_2 : c_string := [118, 50]

/-- The value `"v3"`. -/
def val_3 : c_string := [118, 51]

/-- The key `"?G"`, which has the hash of `"AC"`, `"BA"` and `"@E"`. -/
def key_qG : c_string := [63, 71]

/-- The key `"e5"`, whose hash is 0 like that of `"d7"`. -/
def key_e5 : c_string := [101, 53]

/-- The key `"(0"`, whose hash is 1. -/
def key_p0 : c_string := [40, 48]

/-- The key `"di"`, whose hash is 100 like that of `"2"`. -/
def key_di : c_string := [100, 105]

/-- The table of capacity 255 whose slot 139 holds `("AC", "v1")`. -/
def table_AC : hash_table_t :=
  { items := (List.replicate 510 none).set 139 (some ⟨key_AC, val_1⟩)
    buckets := List.replicate 255 []
    table_size := 255
    num_elements := 1 }

/-- The table `table_AC` with `("BA", "v2")` as the only node of the chain 139; the
`next` of that node was never assigned. -/
def table_AC_BA : hash_table_t :=
  { table_AC with
    buckets := (List.replicate 255 []).set 139 [⟨key_BA, val_2⟩]
    unassigned_next := [139] }

/-- The table `table_AC` with the chain `("BA", "v2")`, `("BA", "v3")` at index 139. -/
def table_AC_BA_BA : hash_table_t :=
  { table_AC with
    buckets := (List.replicate 255 []).set 139 [⟨key_BA, val_2⟩, ⟨key_BA, val_3⟩] }

/-- The table of capacity 255 whose slot 139 holds `("BA", "v2")`, all chains
empty; `buckets[139]` is the never assigned `next` of the node that was promoted. -/
def table_BA : hash_table_t :=
  { items := (List.replicate 510 none).set 139 (some ⟨key_BA, val_2⟩)
    buckets := List.replicate 255 []
    table_size := 255
    num_elements := 1
    unassigned_next := [139] }

/-- A full table of capacity 1: the slot 0 is empty and the slot 1, which the
block of `items` holds beyond `table_size`, holds `("(0", "v1")`. -/
def table_full_1 : hash_table_t :=
  { items := [none, some ⟨key_p0, val_1⟩], buckets := [[]], table_size := 1,
    num_elements := 1 }

/-- The table `table_AC` with the chain `("BA", "v2")`, `("@E", "v3")` at index 139. -/
def table_AC_BA_atE : hash_table_t :=
  { table_AC with
    buckets := (List.replicate 255 []).set 139 [⟨key_BA, val_2⟩, ⟨key_atE, val_3⟩] }

/-- The table `table_AC` with the chain `("BA", "v2")`, `("?G", "v1")` at index 139. -/
def table_AC_BA_qG : hash_table_t :=
  { table_AC with
    buckets := (List.replicate 255 []).set 139 [⟨key_BA, val_2⟩, ⟨key_qG, val_1⟩] }

/-- The table of capacity 255 whose slot 139 holds `("BA", "v2")` and whose chain
139 has the only node `("@E", "v3")`. -/
def table_BA_atE : hash_table_t :=
  { items := (List.replicate 510 none).set 139 (some ⟨key_BA, val_2⟩)
    buckets := (List.replicate 255 []).set 139 [⟨key_atE, val_3⟩]
    table_size := 255
    num_elements := 1 }

/-- The table of capacity 100, as in the driver, whose slot 100 holds `("2", "v1")`. -/
def table_100_key_2 : hash_table_t :=
  { items := (List.replicate 200 none).set 100 (some ⟨key_2, val_1⟩)
    buckets := List.replicate 100 []
    table_size := 100
    num_elements := 1 }

/-! ## The calls of the driver -/

/-- The `char` values of a string literal of ASCII characters. -/
def c_str (s : String) : c_string :=
  s.toList.map (fun c => (c.toNat : Int))

/-- A sequence of calls of `hash_table_insert`, one after the other, as `main`
of `test.c` makes them. -/
def hash_table_insert_all (table : hash_table_t) :
    List (c_string × c_string) → Option hash_table_t
  | [] => some table
  | (key, value) :: rest =>
    match hash_table_insert table key value with
    | none => none
    | some t => hash_table_insert_all t rest

/-- The keys and values of the ten calls of `hash_table_insert` in `main` of
`test.c`, in order. -/
def test_main_inserts : List (c_string × c_string) :=
  [(c_str "1", c_str "First Address"), (c_str "2", c_str "Second Address"),
   (c_str "3", c_str "Third Address"), (c_str "4", c_str "Fourth Address"),
   (c_str "Hel", c_str "Fifth Address"), (c_str "Cau", c_str "Sixth Address"),
   (c_str "7", c_str "Seventh Address"), (c_str "8", c_str "Eighth Address"),
   (c_str "9", c_str "Ninth Address"), (c_str "10", c_str "Tenth Address")]

/-- The table of `main` of `test.c` after `hash_table_create(MY_TABLE_SIZE)` and
its ten inserts. -/
def test_main_table : hash_table_t :=
  (hash_table_insert_all (hash_table_create 100) test_main_inserts).getD
    (hash_table_create 100)

/-! ## Shared facts about the concrete tables -/

set_option maxRecDepth 100000 in
/-- The insert of `("AC", "v1")` into the fresh table of 255 slots. -/
theorem insert_AC_create : hash_table_insert (hash_table_create 255) key_AC val_1 = some table_AC := by
  decide

set_option maxRecDepth 100000 in
/-- The insert of `("BA", "v2")` into `table_AC`. -/
theorem insert_BA_table_AC : hash_table_insert table_AC key_BA val_2 = some table_AC_BA := by
  decide

/-- The table `table_AC` is reachable. -/
theorem reachable_table_AC : Reachable table_AC :=
  Reachable.insert key_AC val_1 (Reachable.create 255) insert_AC_create

/-- The table `table_AC_BA` is reachable. -/
theorem reachable_table_AC_BA : Reachable table_AC_BA :=
  Reachable.insert key_BA val_2 reachable_table_AC insert_BA_table_AC

/-! ## What the code does in general -/

/-- The hash is below 255 for every key. -/
theorem hash_function_lt (str : c_string) : hash_function str < 255 :=
  Int.tmod_lt_of_pos _ (by decide)

/-- The hash is above -255 for every key. -/
theorem neg_lt_hash_function (str : c_string) : -255 < hash_function str := by
  unfold hash_function HASH_TABLE_SIZE
  rcases Int.le_total 0 (hash_function_loop 0 str) with h | h
  · have := Int.tmod_nonneg 255 h
    omega
  · have h2 := Int.tmod_lt_of_pos (-(hash_function_loop 0 str)) (show (0:Int) < 255 by decide)
    rw [Int.tmod_def, Int.neg_tdiv] at h2
    rw [Int.tmod_def]
    omega

/-- The hash is not negative when the accumulator is not negative after the loop. -/
theorem hash_function_nonneg_of_loop (str : c_string) (h : 0 ≤ hash_function_loop 0 str) :
    0 ≤ hash_function str :=
  Int.tmod_nonneg _ h

/-- The search returns `NULL` whenever the primary slot holds another key, whatever
the chain holds. -/
theorem hash_table_search_of_key_ne (table : hash_table_t) (key : c_string)
    (item : hash_item_t) (head : linked_list_t)
    (hitem : array_get table.items (hash_function key) = some (some item))
    (hhead : array_get table.buckets (hash_function key) = some head)
    (hne : item.key ≠ key) :
    hash_table_search table key = some none := by
  cases head <;> simp [hash_table_search, hitem, hhead, hne]

/-- The loop of `hash_table_delete` runs to the end of the chain without effect when
the primary key equals the key to delete. -/
theorem hash_table_delete_loop_of_key_eq (table : hash_table_t) (index : Int)
    (item : hash_item_t) (key : c_string) (heq : item.key = key) (curr : linked_list_t)
    (first : Bool) :
    hash_table_delete_loop table index item key curr first = some table := by
  induction curr generalizing first with
  | nil => simp [hash_table_delete_loop]
  | cons c next ih => simp [hash_table_delete_loop, heq, ih]

/-- Delete of the primary key changes nothing when the chain is not empty. -/
theorem hash_table_delete_of_key_eq_of_chain (table : hash_table_t) (key : c_string)
    (item node : hash_item_t) (rest : linked_list_t)
    (hitem : array_get table.items (hash_function key) = some (some item))
    (hhead : array_get table.buckets (hash_function key) = some (node :: rest))
    (heq : item.key = key) :
    hash_table_delete table key = some table := by
  simp [hash_table_delete, hitem, hhead, heq, hash_table_delete_loop_of_key_eq]

/-- Delete of a key other than the primary key replaces the primary entry by the
head of a chain that is not empty. -/
theorem hash_table_delete_of_key_ne_of_chain (table : hash_table_t) (key : c_string)
    (item node : hash_item_t) (rest : linked_list_t)
    (hitem : array_get table.items (hash_function key) = some (some item))
    (hhead : array_get table.buckets (hash_function key) = some (node :: rest))
    (hne : item.key ≠ key) :
    hash_table_delete table key = some { table with
      items := array_set table.items (hash_function key) (some node)
      buckets := array_set table.buckets (hash_function key) rest
      caller_value := flag_clear table.caller_value (hash_function key) } := by
  simp [hash_table_delete, hitem, hhead, hne, create_item]

/-! ## Insert followed by search -/

set_option maxRecDepth 100000 in
/-- C1: insert followed by search does not return the value when the key goes to
a chain.  The table `table_AC` is reachable and not full; after
`hash_table_insert(t, "BA", "v2")` the call `hash_table_search(t, "BA")` returns
`NULL`, because the search returns after the primary slot and never compares a
chain node. -/
theorem search_after_insert_chained_is_null :
    Reachable table_AC ∧
    table_AC.num_elements < table_AC.table_size ∧
    hash_table_insert table_AC key_BA val_2 = some table_AC_BA ∧
    hash_table_search table_AC_BA key_BA = some none := by
  refine ⟨reachable_table_AC, by decide, insert_BA_table_AC, by decide⟩

set_option maxRecDepth 100000 in
/-- C2: of two distinct keys with one hash, inserted into a fresh table of 255
slots, only the first is found: `hash_table_search` returns `"v1"` for `"AC"`
and `NULL` for `"BA"`. -/
theorem search_second_colliding_key_is_null :
    key_AC ≠ key_BA ∧
    hash_function key_AC = 139 ∧ hash_function key_BA = 139 ∧
    1 < (hash_table_create 255).table_size ∧
    hash_table_insert (hash_table_create 255) key_AC val_1 = some table_AC ∧
    hash_table_insert table_AC key_BA val_2 = some table_AC_BA ∧
    hash_table_search table_AC_BA key_AC = some (some val_1) ∧
    hash_table_search table_AC_BA key_BA = some none := by
  refine ⟨by decide, by decide, by decide, by decide, insert_AC_create,
    insert_BA_table_AC, by decide, by decide⟩

/-! ## Delete -/

set_option maxRecDepth 100000 in
/-- C3: delete does not remove a stored key when the chain at its index is not
empty.  In the reachable table `table_AC_BA` the key `"AC"` is the primary entry
of slot 139: `hash_table_delete(t, "AC")` changes nothing and the search still
returns `"v1"`.  The key `"BA"` is in the chain: `hash_table_delete(t, "BA")`
moves it to the primary slot and the search then returns `"v2"`. -/
theorem search_after_delete_stored_key_finds_it :
    Reachable table_AC_BA ∧
    array_get table_AC_BA.items (hash_function key_AC) = some (some ⟨key_AC, val_1⟩) ∧
    array_get table_AC_BA.buckets (hash_function key_BA) = some [⟨key_BA, val_2⟩] ∧
    hash_table_delete table_AC_BA key_AC = some table_AC_BA ∧
    hash_table_search table_AC_BA key_AC = some (some val_1) ∧
    hash_table_delete table_AC_BA key_BA = some table_BA ∧
    hash_table_search table_BA key_BA = some (some val_2) := by
  refine ⟨reachable_table_AC_BA, by decide, by decide, by decide, by decide, by decide,
    by decide⟩

set_option maxRecDepth 100000 in
/-- C4: delete of an absent key changes the table when the chain at its index is
not empty.  The key `"@E"` has index 139 and is neither the primary key `"AC"`
nor in the chain of the reachable table `table_AC_BA`; `hash_table_delete(t, "@E")`
drops the primary entry `("AC", "v1")`, puts the chain head `("BA", "v2")` in
the slot and empties the chain. -/
theorem delete_absent_key_changes_table :
    Reachable table_AC_BA ∧
    hash_function key_atE = 139 ∧
    array_get table_AC_BA.items 139 = some (some ⟨key_AC, val_1⟩) ∧
    array_get table_AC_BA.buckets 139 = some [⟨key_BA, val_2⟩] ∧
    key_atE ≠ key_AC ∧ key_atE ≠ key_BA ∧
    hash_table_delete table_AC_BA key_atE = some table_BA ∧
    array_get table_BA.items 139 = some (some ⟨key_BA, val_2⟩) ∧
    array_get table_BA.buckets 139 = some [] ∧
    table_BA ≠ table_AC_BA := by
  refine ⟨reachable_table_AC_BA, by decide, by decide, by decide, by decide, by decide,
    by decide, by decide, by decide, by decide⟩

/-! ## Duplicate insert -/

set_option maxRecDepth 100000 in
/-- C5: a key inserted twice is not found when its slot holds another key.  From
the reachable, not full table `table_AC`, `hash_table_insert(t, "BA", "v2")`
followed by `hash_table_insert(t, "BA", "v3")` leaves two nodes for `"BA"` in the
chain 139, `num_elements` stays 1, and `hash_table_search(t, "BA")` returns
`NULL`, not `"v3"`. -/
theorem search_after_duplicate_insert_chained_is_null :
    Reachable table_AC ∧
    table_AC.num_elements < table_AC.table_size ∧
    hash_table_insert table_AC key_BA val_2 = some table_AC_BA ∧
    hash_table_insert table_AC_BA key_BA val_3 = some table_AC_BA_BA ∧
    array_get table_AC_BA_BA.buckets 139 = some [⟨key_BA, val_2⟩, ⟨key_BA, val_3⟩] ∧
    table_AC_BA_BA.num_elements = table_AC_BA.num_elements ∧
    hash_table_search table_AC_BA_BA key_BA = some none := by
  refine ⟨reachable_table_AC, by decide, insert_BA_table_AC, by decide, by decide,
    by decide, by decide⟩

/-! ## Promotion -/

set_option maxRecDepth 100000 in
/-- C6: delete of the primary key does not promote the chain head.  In
`table_AC_BA` slot 139 holds `"AC"` and the chain 139 has the head `("BA", "v2")`;
after `hash_table_delete(t, "AC")` the slot still holds `("AC", "v1")`, the chain
still has its head, the search for `"AC"` returns `"v1"` and the search for
`"BA"` returns `NULL`. -/
theorem delete_primary_does_not_promote :
    hash_function key_AC = 139 ∧
    array_get table_AC_BA.items 139 = some (some ⟨key_AC, val_1⟩) ∧
    array_get table_AC_BA.buckets 139 = some [⟨key_BA, val_2⟩] ∧
    hash_table_delete table_AC_BA key_AC = some table_AC_BA ∧
    hash_table_search table_AC_BA key_AC = some (some val_1) ∧
    hash_table_search table_AC_BA key_BA = some none := by
  refine ⟨by decide, by decide, by decide, by decide, by decide, by decide⟩

/-! ## Rejection by a full table -/

/-- C7: when `num_elements` equals `table_size` and the primary slot at
`hash_function(key)` is empty, `hash_table_insert` returns the table as it was:
`num_elements`, every primary slot and every chain are unchanged. -/
theorem hash_table_insert_full_is_rejected (table : hash_table_t) (key value : c_string)
    (hfull : table.num_elements = table.table_size)
    (hslot : array_get table.items (hash_function key) = some none) :
    hash_table_insert table key value = some table := by
  simp [hash_table_insert, hslot, hfull]

/-- C7, at the table `table_full_1` and the key `"d7"`, whose index is 0. -/
theorem hash_table_insert_full_is_rejected_witness :
    table_full_1.num_elements = table_full_1.table_size ∧
    array_get table_full_1.items (hash_function key_d7) = some none ∧
    hash_table_insert table_full_1 key_d7 val_1 = some table_full_1 :=
  ⟨by decide, by decide,
    hash_table_insert_full_is_rejected table_full_1 key_d7 val_1 (by decide) (by decide)⟩

/-! ## Range of the index -/

set_option maxRecDepth 100000 in
/-- C8: the index is not bounded by the capacity of the table.  For the table
`hash_table_create(100)` of the driver and its key `"2"` the index is 100, which
is outside `[0, 100)`: insert writes `items[100]`, beyond the 100 slots of the
table and inside the block of 200 pointers, and search and delete read
`buckets[100]` out of bounds, before and after that insert. -/
theorem index_of_key_2_outside_table_of_100 :
    (hash_table_create 100).table_size = 100 ∧
    (hash_table_create 100).items.length = 200 ∧
    (hash_table_create 100).buckets.length = 100 ∧
    hash_function key_2 = 100 ∧
    ¬ hash_function key_2 < (hash_table_create 100).table_size ∧
    hash_table_insert (hash_table_create 100) key_2 val_1 = some table_100_key_2 ∧
    hash_table_search (hash_table_create 100) key_2 = none ∧
    hash_table_delete (hash_table_create 100) key_2 = none ∧
    hash_table_search table_100_key_2 key_2 = none ∧
    hash_table_delete table_100_key_2 key_2 = none := by
  refine ⟨by decide, by decide, by decide, by decide, by decide, by decide, by decide,
    by decide, by decide, by decide⟩

set_option maxRecDepth 100000 in
/-- C9: the hash can be negative.  For the key of 24 letters `a` the accumulator
wraps to -1040187586 and the hash is -1; for the key `"é"` (UTF-8, signed `char`)
the accumulator is -418 and the hash is -163.  Both are outside `[0, 255)`. -/
theorem hash_function_negative :
    hash_function_loop 0 key_24a = -1040187586 ∧
    hash_function key_24a = -1 ∧
    hash_function_loop 0 key_eacute = -418 ∧
    hash_function key_eacute = -163 ∧
    ¬ 0 ≤ hash_function key_24a ∧
    ¬ 0 ≤ hash_function key_eacute := by
  refine ⟨by decide, by decide, by decide, by decide, by decide, by decide⟩

/-- C10: the keys `"Hel"` and `"Cau"` of the driver do not collide: their hashes
are 176 and 138. -/
theorem hash_function_Hel_Cau_differ :
    hash_function key_Hel = 176 ∧
    hash_function key_Cau = 138 ∧
    hash_function key_Hel ≠ hash_function key_Cau := by
  refine ⟨by decide, by decide, by decide⟩

/-! ## Array access -/

theorem array_get_eq_some {α : Type} (a : List α) (i : Int) (x : α)
    (h : array_get a i = some x) : 0 ≤ i ∧ a[i.toNat]? = some x := by
  unfold array_get at h
  split at h
  · exact ⟨by assumption, h⟩
  · cases h

/-- A successful read has an index below the length. -/
theorem array_get_lt_length {α : Type} (a : List α) (i : Int) (x : α)
    (h : array_get a i = some x) : i.toNat < a.length := by
  have h2 := (array_get_eq_some a i x h).2
  exact (List.getElem?_eq_some_iff.1 h2).1

/-- A write at an index that can be read is read back. -/
theorem array_get_set_self {α : Type} (a : List α) (i : Int) (x y : α)
    (h : array_get a i = some x) : array_get (array_set a i y) i = some y := by
  have h1 := (array_get_eq_some a i x h).1
  have h2 := array_get_lt_length a i x h
  simp [array_get, array_set, h1, h2]

/-- A write leaves the other indices as they were. -/
theorem array_get_set_ne {α : Type} (a : List α) (i j : Int) (y : α)
    (hi : 0 ≤ i) (hne : j ≠ i) : array_get (array_set a i y) j = array_get a j := by
  unfold array_get array_set
  split
  · have : i.toNat ≠ j.toNat := by omega
    simp [this]
  · rfl

/-- A write keeps the length. -/
theorem array_set_length {α : Type} (a : List α) (i : Int) (y : α) :
    (array_set a i y).length = a.length := by
  simp [array_set]

/-- A read after a write gives the written element or an old one. -/
theorem array_get_set {α : Type} (a : List α) (i j : Int) (x y z : α)
    (h : array_get a i = some x) (hj : array_get (array_set a i y) j = some z) :
    (j = i ∧ z = y) ∨ (j ≠ i ∧ array_get a j = some z) := by
  by_cases hji : j = i
  · subst hji
    rw [array_get_set_self a j x y h] at hj
    exact Or.inl ⟨rfl, (Option.some.inj hj).symm⟩
  · rw [array_get_set_ne a i j y (array_get_eq_some a i x h).1 hji] at hj
    exact Or.inr ⟨hji, hj⟩

/-- The count of the elements with a property, before and after a write. -/
theorem countP_array_set {α : Type} (p : α → Bool) (a : List α) (i : Int) (x y : α)
    (h : array_get a i = some x) :
    (array_set a i y).countP p + (if p x then 1 else 0) =
      a.countP p + (if p y then 1 else 0) := by
  have hlt := array_get_lt_length a i x h
  have hx := (array_get_eq_some a i x h).2
  have hget : a[i.toNat] = x := by
    rw [List.getElem?_eq_getElem hlt] at hx
    exact Option.some.inj hx
  have hle := List.boole_getElem_le_countP p a i.toNat hlt
  unfold array_set
  rw [List.countP_set p a i.toNat y hlt, hget]
  rw [hget] at hle
  omega

/-! ## Chains -/

theorem linked_list_insert_walk_eq (a b : hash_item_t) (rest : linked_list_t)
    (item : hash_item_t) :
    linked_list_insert_walk (a :: b :: rest) item = (a :: b :: rest).dropLast ++ [item] := by
  induction rest generalizing a b with
  | nil => simp [linked_list_insert_walk]
  | cons c r ih => simp [linked_list_insert_walk, ih b c]

/-- On a chain of two or more nodes `linked_list_insert` replaces the last node. -/
theorem linked_list_insert_of_two (a b : hash_item_t) (rest : linked_list_t)
    (item : hash_item_t) :
    linked_list_insert (a :: b :: rest) item = (a :: b :: rest).dropLast ++ [item] := by
  simp only [linked_list_insert]
  exact linked_list_insert_walk_eq a b rest item

/-- The new entry is in the chain that `linked_list_insert` returns. -/
theorem mem_linked_list_insert (list : linked_list_t) (item : hash_item_t) :
    item ∈ linked_list_insert list item := by
  match list with
  | [] => simp [linked_list_insert]
  | [a] => simp [linked_list_insert]
  | a :: b :: rest => rw [linked_list_insert_of_two]; simp

/-- An entry of the chain that `linked_list_insert` returns is an old one or the new one. -/
theorem mem_of_mem_linked_list_insert (list : linked_list_t) (item e : hash_item_t)
    (h : e ∈ linked_list_insert list item) : e ∈ list ∨ e = item := by
  match list, h with
  | [], h => simpa [linked_list_insert] using h
  | [a], h => simpa [linked_list_insert] using h
  | a :: b :: rest, h =>
    rw [linked_list_insert_of_two, List.mem_append] at h
    rcases h with h | h
    · exact Or.inl (List.dropLast_subset _ h)
    · exact Or.inr (by simpa using h)

/-! ## The invariant -/

/-- The fresh table has the invariant. -/
theorem table_invariant_create (size : Int) : table_invariant (hash_table_create size) := by
  refine ⟨by simp [hash_table_create], by simp [hash_table_create], ?_, ?_, ?_, ?_, ?_⟩
  · simp [hash_table_create, List.countP_replicate]
  · intro h
    exact h
  · intro i item h
    have h2 := (array_get_eq_some _ _ _ h).2
    simp [hash_table_create, List.getElem?_replicate] at h2
  · intro i chain e h he
    have h2 := (array_get_eq_some _ _ _ h).2
    simp [hash_table_create, List.getElem?_replicate] at h2
    rw [h2.2] at he
    cases he
  · intro i chain _ h
    have h2 := (array_get_eq_some _ _ _ h).2
    simp [hash_table_create, List.getElem?_replicate] at h2
    exact h2.2

/-- The invariant after an assignment to a primary slot. -/
theorem table_invariant_set_item (t t' : hash_table_t) (i : Int)
    (old new : Option hash_item_t) (hinv : table_invariant t)
    (hold : array_get t.items i = some old)
    (hitems : t'.items = array_set t.items i new)
    (hbuckets : t'.buckets = t.buckets)
    (hsize : t'.table_size = t.table_size)
    (hn : t'.num_elements + (if old.isSome then 1 else 0) =
      t.num_elements + (if new.isSome then 1 else 0))
    (hle : 0 ≤ t.table_size → t'.num_elements ≤ t.table_size)
    (hkey : ∀ item, new = some item → hash_function item.key = i)
    (hchain : new = none → ∀ chain, array_get t.buckets i = some chain → chain = []) :
    table_invariant t' := by
  have hi := (array_get_eq_some _ _ _ hold).1
  refine ⟨?_, ?_, ?_, ?_, ?_, ?_, ?_⟩
  · rw [hitems, hsize, array_set_length]
    exact hinv.items_length
  · rw [hbuckets, hsize]
    exact hinv.buckets_length
  · have hc := countP_array_set Option.isSome t.items i old new hold
    have hcount := hinv.count
    rw [hitems]
    cases old <;> cases new <;> simp at hn hc <;> omega
  · rw [hsize]
    exact hle
  · intro j item hj
    rw [hitems] at hj
    rcases array_get_set t.items i j old new (some item) hold hj with ⟨hji, hnew⟩ | ⟨_, hj2⟩
    · rw [hji]
      exact hkey item hnew.symm
    · exact hinv.placement_items j item hj2
  · rw [hbuckets]
    exact hinv.placement_buckets
  · intro j chain hj hc
    rw [hitems] at hj
    rw [hbuckets] at hc
    rcases array_get_set t.items i j old new none hold hj with ⟨hji, hnew⟩ | ⟨_, hj2⟩
    · rw [hji] at hc
      exact hchain hnew.symm chain hc
    · exact hinv.no_orphan j chain hj2 hc

/-- The invariant after an assignment to the chain of an occupied slot. -/
theorem table_invariant_set_chain (t t' : hash_table_t) (i : Int) (old new : linked_list_t)
    (cur : hash_item_t) (hinv : table_invariant t)
    (hold : array_get t.buckets i = some old)
    (hcur : array_get t.items i = some (some cur))
    (hitems : t'.items = t.items)
    (hbuckets : t'.buckets = array_set t.buckets i new)
    (hsize : t'.table_size = t.table_size)
    (hnum : t'.num_elements = t.num_elements)
    (hkey : ∀ e ∈ new, hash_function e.key = i) :
    table_invariant t' := by
  refine ⟨?_, ?_, ?_, ?_, ?_, ?_, ?_⟩
  · rw [hitems, hsize]
    exact hinv.items_length
  · rw [hbuckets, hsize, array_set_length]
    exact hinv.buckets_length
  · rw [hitems, hnum]
    exact hinv.count
  · rw [hsize, hnum]
    exact hinv.count_le
  · rw [hitems]
    exact hinv.placement_items
  · intro j chain e hj he
    rw [hbuckets] at hj
    rcases array_get_set t.buckets i j old new chain hold hj with ⟨hji, hnew⟩ | ⟨_, hj2⟩
    · rw [hji]
      exact hkey e (hnew ▸ he)
    · exact hinv.placement_buckets j chain e hj2 he
  · intro j chain hj hc
    rw [hitems] at hj
    rw [hbuckets] at hc
    have hne : j ≠ i := by
      intro hji
      rw [hji, hcur] at hj
      cases hj
    rw [array_get_set_ne t.buckets i j new (array_get_eq_some _ _ _ hold).1 hne] at hc
    exact hinv.no_orphan j chain hj hc

/-- The function `hash_table_insert` keeps the invariant. -/
theorem table_invariant_insert (t t' : hash_table_t) (key value : c_string)
    (hinv : table_invariant t) (h : hash_table_insert t key value = some t') :
    table_invariant t' := by
  unfold hash_table_insert at h
  simp only at h
  cases hslot : array_get t.items (hash_function key) with
  | none => simp [hslot] at h
  | some slot =>
    cases slot with
    | none =>
      simp only [hslot] at h
      split at h
      · cases h
        exact hinv
      · rename_i hfull
        cases h
        have hle := hinv.count_le
        exact table_invariant_set_item t _ (hash_function key) none _ hinv hslot rfl rfl rfl
          (by simp) (by intro h0; have := hle h0; simp only; omega)
          (by intro item hitem; cases hitem; rfl) (by intro hnone; cases hnone)
    | some cur =>
      simp only [hslot] at h
      split at h
      · cases h
        have hcur := hinv.placement_items _ _ hslot
        exact table_invariant_set_item t _ (hash_function key) (some cur) _ hinv hslot rfl rfl
          rfl (by simp) hinv.count_le
          (by intro item hitem; cases hitem; exact hcur) (by intro hnone; cases hnone)
      · unfold hash_table_handle_collision at h
        cases hchain : array_get t.buckets (hash_function key) with
        | none => simp [hchain] at h
        | some chain =>
          have hold := fun e => hinv.placement_buckets _ _ e hchain
          cases chain with
          | nil =>
            simp only [hchain] at h
            cases h
            refine table_invariant_set_chain t _ _ [] _ cur hinv hchain hslot rfl rfl rfl rfl ?_
            intro e he
            simp at he
            rw [he]
            rfl
          | cons a rest =>
            simp only [hchain] at h
            cases h
            refine table_invariant_set_chain t _ _ (a :: rest) _ cur hinv hchain hslot rfl rfl
              rfl rfl ?_
            intro e he
            rcases mem_of_mem_linked_list_insert _ _ _ he with h1 | h1
            · exact hold e h1
            · rw [h1]
              rfl

/-- The function `hash_table_delete` keeps the invariant. -/
theorem table_invariant_delete (t t' : hash_table_t) (key : c_string)
    (hinv : table_invariant t) (h : hash_table_delete t key = some t') :
    table_invariant t' := by
  unfold hash_table_delete at h
  simp only at h
  cases hslot : array_get t.items (hash_function key) with
  | none => simp [hslot] at h
  | some slot =>
    cases hchain : array_get t.buckets (hash_function key) with
    | none => simp [hslot, hchain] at h
    | some chain =>
      cases slot with
      | none =>
        simp only [hslot, hchain] at h
        cases h
        exact hinv
      | some item =>
        cases chain with
        | nil =>
          simp only [hslot, hchain] at h
          split at h
          · cases h
            have hle := hinv.count_le
            exact table_invariant_set_item t _ (hash_function key) (some item) none hinv hslot
              rfl rfl rfl (by simp) (by intro h0; have := hle h0; simp only; omega)
              (by intro item hitem; cases hitem)
              (by intro _ chain hc; rw [hchain] at hc; cases hc; rfl)
          · cases h
            exact hinv
        | cons node rest =>
          simp only [hslot, hchain] at h
          split at h
          · cases h
            have hold := fun e => hinv.placement_buckets _ _ e hchain
            have h1 : table_invariant
                { t with buckets := array_set t.buckets (hash_function key) rest } :=
              table_invariant_set_chain t _ _ (node :: rest) rest item hinv hchain hslot rfl rfl
                rfl rfl (fun e he => hold e (List.mem_cons_of_mem _ he))
            exact table_invariant_set_item _ _ (hash_function key) (some item)
              (some (create_item node.key node.value)) h1 hslot rfl rfl rfl (by simp)
              hinv.count_le
              (by intro e he; cases he; exact hold node (List.mem_cons_self _ _))
              (by intro hnone; cases hnone)
          · rename_i hkey
            have hkey2 : item.key = key := by simpa using hkey
            rw [hash_table_delete_loop_of_key_eq t _ item key hkey2] at h
            cases h
            exact hinv

/-- Every reachable table has the invariant. -/
theorem table_invariant_of_reachable (t : hash_table_t) (h : Reachable t) :
    table_invariant t := by
  induction h with
  | create size => exact table_invariant_create size
  | insert key value _ hstep ih => exact table_invariant_insert _ _ key value ih hstep
  | delete key _ hstep ih => exact table_invariant_delete _ _ key ih hstep

/-- The function `hash_table_insert` keeps `table_size`. -/
theorem hash_table_insert_table_size (t t' : hash_table_t) (key value : c_string)
    (h : hash_table_insert t key value = some t') : t'.table_size = t.table_size := by
  unfold hash_table_insert hash_table_handle_collision at h
  simp only at h
  split at h
  · cases h
  · split at h <;> cases h <;> rfl
  · split at h
    · cases h
      rfl
    · split at h <;> cases h <;> rfl

/-- The function `hash_table_delete` keeps `table_size`. -/
theorem hash_table_delete_table_size (t t' : hash_table_t) (key : c_string)
    (h : hash_table_delete t key = some t') : t'.table_size = t.table_size := by
  unfold hash_table_delete at h
  simp only at h
  split at h
  · cases h
  · cases h
  · cases h
    rfl
  · split at h <;> cases h <;> rfl
  · rename_i item node rest _ _
    split at h
    · cases h
      rfl
    · rename_i hkey
      have hkey2 : item.key = key := by simpa using hkey
      rw [hash_table_delete_loop_of_key_eq t _ item key hkey2] at h
      cases h
      rfl

/-- A table reached from `hash_table_create(capacity)` is reachable. -/
theorem reachable_of_reachableFrom (capacity : Int) (t : hash_table_t)
    (h : ReachableFrom capacity t) : Reachable t := by
  induction h with
  | create => exact Reachable.create capacity
  | insert key value _ hstep ih => exact Reachable.insert key value ih hstep
  | delete key _ hstep ih => exact Reachable.delete key ih hstep

/-- A table reached from `hash_table_create(capacity)` has `table_size == capacity`. -/
theorem table_size_of_reachableFrom (capacity : Int) (t : hash_table_t)
    (h : ReachableFrom capacity t) : t.table_size = capacity := by
  induction h with
  | create => rfl
  | insert key value _ hstep ih => rw [hash_table_insert_table_size _ _ key value hstep, ih]
  | delete key _ hstep ih => rw [hash_table_delete_table_size _ _ key hstep, ih]

set_option maxRecDepth 100000 in
/-- The insert of `("2", "v1")` into the fresh table of capacity 100, the second
insert of the driver, writes the slot 100. -/
theorem insert_key_2_create_100 :
    hash_table_insert (hash_table_create 100) key_2 val_1 = some table_100_key_2 := by
  decide

/-- The table `table_100_key_2` is reached from `hash_table_create(100)`. -/
theorem reachableFrom_table_100_key_2 : ReachableFrom 100 table_100_key_2 :=
  ReachableFrom.insert key_2 val_1 ReachableFrom.create insert_key_2_create_100

/-- The full table `table_full_1` with an empty slot is reached from
`hash_table_create(1)` by the insert of `("(0", "v1")`, whose index is 1. -/
theorem reachableFrom_table_full_1 : ReachableFrom 1 table_full_1 :=
  ReachableFrom.insert key_p0 val_1 ReachableFrom.create (by decide)

/-- A sequence of inserts that succeeds leads from a reached table to a reached
table. -/
theorem reachableFrom_insert_all (capacity : Int) (entries : List (c_string × c_string))
    (t t' : hash_table_t) (h : ReachableFrom capacity t)
    (hall : hash_table_insert_all t entries = some t') : ReachableFrom capacity t' := by
  induction entries generalizing t with
  | nil =>
    simp only [hash_table_insert_all] at hall
    cases hall
    exact h
  | cons entry rest ih =>
    obtain ⟨key, value⟩ := entry
    simp only [hash_table_insert_all] at hall
    cases hstep : hash_table_insert t key value with
    | none => simp [hstep] at hall
    | some t1 =>
      simp only [hstep] at hall
      exact ih t1 (ReachableFrom.insert key value h hstep) hall

set_option maxRecDepth 100000 in
/-- The ten inserts of the driver are all defined and give `test_main_table`. -/
theorem insert_all_test_main :
    hash_table_insert_all (hash_table_create 100) test_main_inserts =
      some test_main_table := by
  decide

/-- The table of the driver after its ten inserts is reached from
`hash_table_create(100)`. -/
theorem reachableFrom_test_main_table : ReachableFrom 100 test_main_table :=
  reachableFrom_insert_all 100 test_main_inserts _ _ ReachableFrom.create insert_all_test_main

set_option maxRecDepth 100000 in
/-- The indices of the ten keys of the driver; `hash_table_delete(table, "1")` is
defined on the table of the driver, and `hash_table_delete(table, "Cau")` reads
`buckets[138]` outside the 100 chains. -/
theorem test_main_indices :
    test_main_inserts.map (fun entry => hash_function entry.1) =
      [98, 100, 102, 104, 176, 138, 110, 112, 114, 37] ∧
    (hash_table_delete test_main_table (c_str "1")).isSome = true ∧
    hash_table_delete test_main_table (c_str "Cau") = none := by
  refine ⟨by decide, by decide, by decide⟩

/-! ## Invariants of the reachable tables -/

/-- C11: in every table reachable from `hash_table_create(capacity)` with
`capacity > 0` by calls of `hash_table_insert` and `hash_table_delete`,
`0 <= num_elements <= table_size`. -/
theorem num_elements_bounds (capacity : Int) (t : hash_table_t) (hcap : 0 < capacity)
    (h : ReachableFrom capacity t) :
    0 ≤ t.num_elements ∧ t.num_elements ≤ t.table_size := by
  have hinv := table_invariant_of_reachable t (reachable_of_reachableFrom capacity t h)
  have hsize := table_size_of_reachableFrom capacity t h
  have hcount := hinv.count
  have hle := hinv.count_le (by omega)
  omega

set_option maxRecDepth 100000 in
/-- C11, at the table of the driver after its ten inserts, of which eight have an
index that is not below the capacity 100. -/
theorem num_elements_bounds_witness :
    (0 : Int) < 100 ∧ ReachableFrom 100 test_main_table ∧
    test_main_table.num_elements = 10 ∧
    0 ≤ test_main_table.num_elements ∧
    test_main_table.num_elements ≤ test_main_table.table_size :=
  ⟨by decide, reachableFrom_test_main_table, by decide,
    num_elements_bounds 100 test_main_table (by decide) reachableFrom_test_main_table⟩

/-- C12: in every table reachable from `hash_table_create` by calls of
`hash_table_insert` and `hash_table_delete`, the entry in the primary slot at
index `i` and the entry of every node of the chain at index `i` have a key
whose hash is `i`. -/
theorem stored_entries_hash_to_their_index (t : hash_table_t) (h : Reachable t) :
    (∀ (i : Int) (item : hash_item_t),
      array_get t.items i = some (some item) → hash_function item.key = i) ∧
    (∀ (i : Int) (chain : linked_list_t) (e : hash_item_t),
      array_get t.buckets i = some chain → e ∈ chain → hash_function e.key = i) :=
  ⟨(table_invariant_of_reachable t h).placement_items,
    (table_invariant_of_reachable t h).placement_buckets⟩

set_option maxRecDepth 100000 in
/-- C12, at the reachable table `table_AC_BA`: the primary key `"AC"` and the
chained key `"BA"` of index 139 hash to 139. -/
theorem stored_entries_hash_to_their_index_witness :
    Reachable table_AC_BA ∧ hash_function key_AC = 139 ∧ hash_function key_BA = 139 :=
  ⟨reachable_table_AC_BA,
    (stored_entries_hash_to_their_index table_AC_BA reachable_table_AC_BA).1 139
      ⟨key_AC, val_1⟩ (by decide),
    (stored_entries_hash_to_their_index table_AC_BA reachable_table_AC_BA).2 139
      [⟨key_BA, val_2⟩] ⟨key_BA, val_2⟩ (by decide) (by decide)⟩

/-- C19: in every table reachable from `hash_table_create` by calls of
`hash_table_insert` and `hash_table_delete`, an empty primary slot at index `i`
has no chain node at index `i`: the chain `buckets[i]` is empty when `i` is
below `table_size`, and there is no chain at `i` otherwise. -/
theorem empty_slot_has_empty_chain (t : hash_table_t) (h : Reachable t) (i : Int)
    (hempty : array_get t.items i = some none) :
    (∀ chain, array_get t.buckets i = some chain → chain = []) ∧
    (i < t.table_size → array_get t.buckets i = some []) ∧
    (t.table_size ≤ i → array_get t.buckets i = none) := by
  have hinv := table_invariant_of_reachable t h
  have hi := (array_get_eq_some _ _ _ hempty).1
  have hlen := hinv.buckets_length
  refine ⟨fun chain hc => hinv.no_orphan i chain hempty hc, ?_, ?_⟩
  · intro hlt
    have hlt2 : i.toNat < t.buckets.length := by omega
    have hget : array_get t.buckets i = some (t.buckets[i.toNat]) := by
      simp [array_get, hi, List.getElem?_eq_getElem hlt2]
    rw [hget, hinv.no_orphan i _ hempty hget]
  · intro hge
    have hge2 : t.buckets.length ≤ i.toNat := by omega
    simp [array_get, hi, List.getElem?_eq_none hge2]

set_option maxRecDepth 100000 in
/-- C19, at the table `table_100_key_2`, reached from `hash_table_create(100)` by
the insert of the key `"2"` of the driver, and its empty slot 7. -/
theorem empty_slot_has_empty_chain_witness :
    Reachable table_100_key_2 ∧ array_get table_100_key_2.items 7 = some none ∧
    array_get table_100_key_2.buckets 7 = some [] :=
  ⟨reachable_of_reachableFrom 100 table_100_key_2 reachableFrom_table_100_key_2, by decide,
    (empty_slot_has_empty_chain table_100_key_2
      (reachable_of_reachableFrom 100 table_100_key_2 reachableFrom_table_100_key_2) 7
      (by decide)).2.1 (by decide)⟩

/-! ## The hash function and its reference -/

theorem int32_wrap_of_in_range (x : Int) (hlo : -2147483648 ≤ x) (hhi : x ≤ 2147483647) :
    int32_wrap x = x := by
  unfold int32_wrap
  omega

/-- Without overflow the loop of `hash_function` computes the unbounded fold, which is not negative. -/
theorem hash_function_loop_eq_foldl (key : c_string) (acc : Int) (h0 : 0 ≤ acc)
    (h : ∀ x ∈ hash_val_trace acc key, 0 ≤ x ∧ x ≤ 2147483647) :
    hash_function_loop acc key = key.foldl (fun accumulator b => (accumulator + b) * 2) acc ∧
      0 ≤ key.foldl (fun accumulator b => (accumulator + b) * 2) acc := by
  induction key generalizing acc with
  | nil => exact ⟨rfl, h0⟩
  | cons c rest ih =>
    have h1 := h (acc + c) (by simp [hash_val_trace])
    have h2 := h ((acc + c) * 2) (by simp [hash_val_trace])
    have h3 : ∀ x ∈ hash_val_trace ((acc + c) * 2) rest, 0 ≤ x ∧ x ≤ 2147483647 := by
      intro x hx
      exact h x (by simp [hash_val_trace, hx])
    have hw1 : int32_wrap (acc + c) = acc + c := int32_wrap_of_in_range _ (by omega) h1.2
    have hw2 : int32_wrap ((acc + c) * 2) = (acc + c) * 2 :=
      int32_wrap_of_in_range _ (by omega) h2.2
    simp only [hash_function_loop, List.foldl_cons, hw1, hw2]
    exact ih ((acc + c) * 2) h2.1 h3

/-- Without overflow `hash_function` returns the reference. -/
theorem hash_function_eq_reference (key : c_string)
    (h : ∀ x ∈ hash_val_trace 0 key, 0 ≤ x ∧ x ≤ 2147483647) :
    hash_function_loop 0 key = hash_reference_accumulator key ∧
      hash_function key = hash_reference key ∧ 0 ≤ hash_function key := by
  have hloop := hash_function_loop_eq_foldl key 0 (by decide) h
  refine ⟨hloop.1, ?_, ?_⟩
  · unfold hash_function hash_reference hash_reference_accumulator HASH_TABLE_SIZE
    rw [hloop.1]
    exact Int.tmod_eq_emod hloop.2 (by decide)
  · unfold hash_function
    rw [hloop.1]
    exact Int.tmod_nonneg _ hloop.2

/-- The room is at most `2^31 - 1`. -/
theorem hash_val_room_le (n : Nat) : hash_val_room n ≤ 2147483647 := by
  induction n with
  | zero => simp [hash_val_room]
  | succ m ih =>
    simp only [hash_val_room]
    omega

/-- From an accumulator within the room for `n` chars, a key of at most `n` chars in 1..127
keeps every value of `hash_val` in `[0, 2^31 - 1]`. -/
theorem hash_val_trace_in_range (n : Nat) (key : c_string) (acc : Int)
    (hlen : key.length ≤ n) (hbytes : ∀ b ∈ key, 1 ≤ b ∧ b ≤ 127)
    (h0 : 0 ≤ acc) (hacc : acc ≤ hash_val_room n) :
    ∀ x ∈ hash_val_trace acc key, 0 ≤ x ∧ x ≤ 2147483647 := by
  induction key generalizing n acc with
  | nil => intro x hx; simp [hash_val_trace] at hx
  | cons c rest ih =>
    cases n with
    | zero => simp at hlen
    | succ m =>
      have hc := hbytes c (by simp)
      have hroom := hash_val_room_le m
      have hstep : hash_val_room (m + 1) = hash_val_room m / 2 - 127 := rfl
      have hrest := ih m ((acc + c) * 2) (by simpa using hlen)
        (fun b hb => hbytes b (by simp [hb])) (by omega) (by omega)
      intro x hx
      simp only [hash_val_trace, List.mem_cons] at hx
      rcases hx with hx | hx | hx
      · subst hx; omega
      · subst hx; omega
      · exact hrest x hx

set_option maxRecDepth 100000 in
/-- C13, as stated, fails: for the key of 24 letters `a` the reference in
unbounded integers is 0 and `hash_function` returns -1. -/
theorem hash_function_ne_reference_24a :
    hash_reference key_24a = 0 ∧ hash_function key_24a = -1 ∧
    hash_function key_24a ≠ hash_reference key_24a := by
  refine ⟨by decide, by decide, by decide⟩

/-- C13, amended: for every key for which every value that the loop gives to
`hash_val`, computed without wrapping, lies in `[0, 2^31 - 1]`, `hash_function`
returns the fold of `acc := (acc + b) * 2` over the bytes, from 0, modulo 255;
and `hash_function("")` is 0. -/
theorem hash_function_eq_reference_of_in_range (key : c_string)
    (h : ∀ x ∈ hash_val_trace 0 key, 0 ≤ x ∧ x ≤ 2147483647) :
    hash_function key = hash_reference key ∧ hash_function [] = 0 :=
  ⟨(hash_function_eq_reference key h).2.1, by decide⟩

/-- C13, amended, at the key `"Hel"`, whose reference is 176. -/
theorem hash_function_eq_reference_of_in_range_witness :
    (∀ x ∈ hash_val_trace 0 key_Hel, 0 ≤ x ∧ x ≤ 2147483647) ∧
    hash_reference key_Hel = 176 ∧
    hash_function key_Hel = hash_reference key_Hel :=
  ⟨by decide, by decide, (hash_function_eq_reference_of_in_range key_Hel (by decide)).1⟩

set_option maxRecDepth 100000 in
/-- C20: for every key of at most 23 chars, each in 1..127, every value that the
loop gives to `hash_val` lies in `[0, 2^31 - 1]` without wrapping, the wrapped
accumulator equals the unbounded one, and the hash equals the reference and
lies in `[0, 255)`; and for the key of 24 letters `a` the unbounded accumulator
exceeds `2^31 - 1`. -/
theorem hash_function_no_overflow_up_to_23 :
    (∀ key : c_string, key.length ≤ 23 → (∀ b ∈ key, 1 ≤ b ∧ b ≤ 127) →
      (∀ x ∈ hash_val_trace 0 key, 0 ≤ x ∧ x ≤ 2147483647) ∧
      hash_function_loop 0 key = hash_reference_accumulator key ∧
      hash_function key = hash_reference key ∧
      0 ≤ hash_function key ∧ hash_function key < 255) ∧
    (key_24a.length = 24 ∧ (∀ b ∈ key_24a, 1 ≤ b ∧ b ≤ 127) ∧
      2147483647 < hash_reference_accumulator key_24a) := by
  refine ⟨?_, by decide, by decide, by decide⟩
  intro key hlen hbytes
  have htrace := hash_val_trace_in_range 23 key 0 hlen hbytes (by decide) (by decide)
  have href := hash_function_eq_reference key htrace
  exact ⟨htrace, href.1, href.2.1, href.2.2, hash_function_lt key⟩

/-- C20, at the key `"Hel"`. -/
theorem hash_function_no_overflow_up_to_23_witness :
    key_Hel.length ≤ 23 ∧ (∀ b ∈ key_Hel, 1 ≤ b ∧ b ≤ 127) ∧
    hash_function_loop 0 key_Hel = 1196 ∧ 0 ≤ hash_function key_Hel ∧
    hash_function key_Hel < 255 :=
  ⟨by decide, by decide, by decide,
    (hash_function_no_overflow_up_to_23.1 key_Hel (by decide) (by decide)).2.2.2⟩

/-! ## Search and the chain -/

set_option maxRecDepth 100000 in
/-- C14: the search does not scan the chain.  In the table `table_AC_BA_atE`,
reached by inserting `"AC"`, `"BA"` and `"@E"` into a fresh table of 255 slots,
slot 139 holds `"AC"` and the chain 139 holds `"BA"` and `"@E"`;
`hash_table_search` returns `NULL` for `"BA"` and for `"@E"`. -/
theorem search_ignores_chain_nodes :
    hash_table_insert table_AC_BA key_atE val_3 = some table_AC_BA_atE ∧
    Reachable table_AC_BA_atE ∧
    hash_function key_BA = 139 ∧ hash_function key_atE = 139 ∧
    array_get table_AC_BA_atE.items 139 = some (some ⟨key_AC, val_1⟩) ∧
    array_get table_AC_BA_atE.buckets 139 = some [⟨key_BA, val_2⟩, ⟨key_atE, val_3⟩] ∧
    hash_table_search table_AC_BA_atE key_BA = some none ∧
    hash_table_search table_AC_BA_atE key_atE = some none := by
  have hins : hash_table_insert table_AC_BA key_atE val_3 = some table_AC_BA_atE := by decide
  refine ⟨hins, Reachable.insert key_atE val_3 reachable_table_AC_BA hins, by decide, by decide,
    by decide, by decide, by decide, by decide⟩

/-! ## Append to a chain -/

set_option maxRecDepth 100000 in
/-- C15: the append to a chain of two nodes replaces the last node.
`linked_list_insert` on the chain `("BA", "v2")`, `("@E", "v3")` with the entry
`("?G", "v1")` gives `("BA", "v2")`, `("?G", "v1")`, and so do
`hash_table_handle_collision` and `hash_table_insert` on the chain 139 of
`table_AC_BA_atE`: the entry `("@E", "v3")` is lost. -/
theorem linked_list_insert_drops_last_node :
    linked_list_insert [⟨key_BA, val_2⟩, ⟨key_atE, val_3⟩] ⟨key_qG, val_1⟩ =
      [⟨key_BA, val_2⟩, ⟨key_qG, val_1⟩] ∧
    linked_list_insert [⟨key_BA, val_2⟩, ⟨key_atE, val_3⟩] ⟨key_qG, val_1⟩ ≠
      [⟨key_BA, val_2⟩, ⟨key_atE, val_3⟩, ⟨key_qG, val_1⟩] ∧
    hash_table_handle_collision table_AC_BA_atE 139 ⟨key_qG, val_1⟩ = some table_AC_BA_qG ∧
    hash_table_insert table_AC_BA_atE key_qG val_1 = some table_AC_BA_qG ∧
    array_get table_AC_BA_qG.buckets 139 = some [⟨key_BA, val_2⟩, ⟨key_qG, val_1⟩] := by
  refine ⟨by decide, by decide, by decide, by decide, by decide⟩

/-! ## Delete of a chained key -/

set_option maxRecDepth 100000 in
/-- C16: delete of a chained key replaces the primary entry.  In
`table_AC_BA_atE` slot 139 holds `"AC"` and the chain 139 holds `"BA"` and
`"@E"`; `hash_table_delete(t, "@E")` puts the chain head `("BA", "v2")` in the
slot in place of `("AC", "v1")` and leaves the node `("@E", "v3")` in the chain. -/
theorem delete_chained_key_replaces_primary :
    hash_function key_atE = 139 ∧
    array_get table_AC_BA_atE.items 139 = some (some ⟨key_AC, val_1⟩) ∧
    key_AC ≠ key_atE ∧
    array_get table_AC_BA_atE.buckets 139 = some [⟨key_BA, val_2⟩, ⟨key_atE, val_3⟩] ∧
    hash_table_delete table_AC_BA_atE key_atE = some table_BA_atE ∧
    array_get table_BA_atE.items 139 = some (some ⟨key_BA, val_2⟩) ∧
    array_get table_BA_atE.buckets 139 = some [⟨key_atE, val_3⟩] ∧
    array_get table_BA_atE.items 139 ≠ array_get table_AC_BA_atE.items 139 := by
  refine ⟨by decide, by decide, by decide, by decide, by decide, by decide, by decide,
    by decide⟩

/-! ## Delete of an unchained primary -/

/-- When the primary slot at `i = hash_function(key)` holds `key` with a value
that the table copied itself, and the chain at `i` is empty, `hash_table_delete`
empties the slot, lowers `num_elements` by one, leaves every other slot and
every chain as it was, and `hash_table_search` then returns `NULL` for `key`. -/
theorem hash_table_delete_unchained_primary_of_own_value (t : hash_table_t)
    (key : c_string) (item : hash_item_t)
    (hslot : array_get t.items (hash_function key) = some (some item))
    (hkey : item.key = key)
    (hchain : array_get t.buckets (hash_function key) = some [])
    (_hown : hash_function key ∉ t.caller_value) :
    ∃ t', hash_table_delete t key = some t' ∧
      array_get t'.items (hash_function key) = some none ∧
      t'.num_elements = t.num_elements - 1 ∧
      (∀ j, j ≠ hash_function key → array_get t'.items j = array_get t.items j) ∧
      t'.buckets = t.buckets ∧
      t'.table_size = t.table_size ∧
      hash_table_search t' key = some none := by
  have hi := (array_get_eq_some _ _ _ hslot).1
  have hnew := array_get_set_self t.items (hash_function key) (some item) none hslot
  refine ⟨{ t with
    items := array_set t.items (hash_function key) none
    num_elements := t.num_elements - 1
    caller_value := flag_clear t.caller_value (hash_function key) }, ?_, hnew, rfl, ?_, rfl,
    rfl, ?_⟩
  · simp [hash_table_delete, hslot, hchain, hkey]
  · intro j hj
    exact array_get_set_ne t.items (hash_function key) j none hi hj
  · simp [hash_table_search, hnew, hchain]

/-- When the primary slot at `i = hash_function(key)` holds another key, the
chain `buckets[i]` exists and its last link was assigned, `hash_table_insert`
succeeds whatever `num_elements` is, leaves `num_elements`, every primary slot
and every chain at an index other than `i` as they were, and the chain at `i`
then contains the entry `(key, value)`. -/
theorem hash_table_insert_colliding_of_assigned_next (t : hash_table_t)
    (key value : c_string) (cur : hash_item_t) (chain : linked_list_t)
    (hslot : array_get t.items (hash_function key) = some (some cur))
    (hne : cur.key ≠ key)
    (hchain : array_get t.buckets (hash_function key) = some chain)
    (_hnext : hash_function key ∉ t.unassigned_next) :
    ∃ t', hash_table_insert t key value = some t' ∧
      t'.num_elements = t.num_elements ∧
      t'.items = t.items ∧
      t'.table_size = t.table_size ∧
      (∀ j, j ≠ hash_function key → array_get t'.buckets j = array_get t.buckets j) ∧
      ∃ chain', array_get t'.buckets (hash_function key) = some chain' ∧
        (⟨key, value⟩ : hash_item_t) ∈ chain' := by
  have hi := (array_get_eq_some _ _ _ hslot).1
  cases chain with
  | nil =>
    refine ⟨{ t with
        buckets := array_set t.buckets (hash_function key) [⟨key, value⟩]
        unassigned_next := flag_set t.unassigned_next (hash_function key) },
      ?_, rfl, rfl, rfl, ?_, [⟨key, value⟩], ?_, by simp⟩
    · simp [hash_table_insert, hash_table_handle_collision, hslot, hne, hchain, create_item]
    · intro j hj
      exact array_get_set_ne t.buckets (hash_function key) j _ hi hj
    · exact array_get_set_self t.buckets (hash_function key) [] _ hchain
  | cons a rest =>
    refine ⟨{ t with
        buckets := array_set t.buckets (hash_function key)
          (linked_list_insert (a :: rest) ⟨key, value⟩)
        unassigned_next := flag_clear t.unassigned_next (hash_function key) },
      ?_, rfl, rfl, rfl, ?_, linked_list_insert (a :: rest) ⟨key, value⟩, ?_,
      mem_linked_list_insert _ _⟩
    · simp [hash_table_insert, hash_table_handle_collision, hslot, hne, hchain, create_item]
    · intro j hj
      exact array_get_set_ne t.buckets (hash_function key) j _ hi hj
    · exact array_get_set_self t.buckets (hash_function key) (a :: rest) _ hchain

set_option maxRecDepth 100000 in
/-- C18: a colliding insert can be undefined.  In the table `table_100_key_2`,
reached from `hash_table_create(100)` by the insert of `"2"`, the slot 100 holds
`"2"`; `hash_table_insert(t, "di", "v2")`, whose index is 100 too, reads
`buckets[100]` outside the 100 chains.  In the reachable table `table_AC_BA` the
slot 139 holds `"AC"` and the chain 139 has one node whose `next` was never
assigned; `hash_table_insert(t, "@E", "v3")` passes that chain to
`linked_list_insert`, which tests and follows `list->next`. -/
theorem colliding_insert_undefined :
    ReachableFrom 100 table_100_key_2 ∧
    hash_function key_di = 100 ∧
    array_get table_100_key_2.items (hash_function key_di) = some (some ⟨key_2, val_1⟩) ∧
    key_2 ≠ key_di ∧
    hash_table_insert table_100_key_2 key_di val_2 = none ∧
    Reachable table_AC_BA ∧
    hash_function key_atE = 139 ∧
    array_get table_AC_BA.items 139 = some (some ⟨key_AC, val_1⟩) ∧
    key_AC ≠ key_atE ∧
    array_get table_AC_BA.buckets 139 = some [⟨key_BA, val_2⟩] ∧
    (139 : Int) ∈ table_AC_BA.unassigned_next := by
  refine ⟨reachableFrom_table_100_key_2, by decide, by decide, by decide, by decide,
    reachable_table_AC_BA, by decide, by decide, by decide, by decide, by decide⟩

end HashTableC
